import Mathlib

/-!
# Verification of the generic netlink header codec (`src/genlhdr.rs`)

A shallow embedding of the `GenlHdr` / `NlAttrHdr` / `NlAttrPayload` codec.
Bytes are modelled as `Nat` values (each written byte is reduced `% 256`
where the source writes a `u8`, and 16-bit fields are written as two bytes
in native little-endian order, matching the byte layout the repository's
own tests pin down).  Serialization into the in-memory cursor cannot fail
for these types, so `serialize` is a pure function returning the written
bytes; deserialization is a state-passing function returning
`Except DeError`.

The primitive codecs (`u8`/`u16`/`Vec<u8>` impls of the `Nl` trait), the
`NlDeState` plumbing, the `asize` default method and the `ffi` enums live
in crate files that are not part of `src/`; those definitions are modelled
from the spec and carry a `Modelled from the spec:` doc comment.
-/

/-- Modelled from the spec: §4.1 alignment helper from the crate root (not
under `src/`): `alignedSize(rawSize) = rawSize + ((4 - rawSize mod 4) mod 4)`. -/
def alignedSize (n : Nat) : Nat := n + ((4 - n % 4) % 4)

/-- Modelled from the spec: the decode error kinds of §7 (`DeError` lives in
the crate root, not under `src/`): `Truncated` (input ends mid-structure),
`Underrun` (declared length exceeds remaining input), `LengthMismatch`
(declared length smaller than the minimum header size). -/
inductive DeError : Type where
  | Truncated : DeError
  | Underrun : DeError
  | LengthMismatch : DeError
deriving DecidableEq, Repr

/-- Modelled from the spec: the `GenlCmds` command enumeration from `ffi`
(not under `src/`).  `CmdUnspec` is the explicit "unspecified" variant that
unrecognized wire values decode to; `CmdGetops` has wire value 3 by the
spec's concrete scenario (§8). -/
inductive GenlCmds : Type where
  | CmdUnspec : GenlCmds
  | CmdGetops : GenlCmds
deriving DecidableEq, Repr

/-- Modelled from the spec: wire value of each command (`impl From<GenlCmds>
for u8` in `ffi`, not under `src/`). -/
def GenlCmds.toWire : GenlCmds → Nat
  | .CmdUnspec => 0
  | .CmdGetops => 3

/-- Modelled from the spec: command decoding maps the wire byte back to the
enumeration, with unrecognized values going to `CmdUnspec` (§6, §9). -/
def GenlCmds.fromWire (n : Nat) : GenlCmds :=
  if n = 3 then .CmdGetops else .CmdUnspec

/-- Modelled from the spec: `GenlCmds` is encoded as a single `u8`, so its
fixed codec size is 1 byte. -/
def GenlCmds.size : Nat := 1

/-- Modelled from the spec: the `NlaType` attribute-type enumeration from
`ffi` (not under `src/`).  `AttrUnspec` is the "unspecified" variant and
`AttrFamilyId` has wire value 1 (§8 concrete scenario). -/
inductive NlaType : Type where
  | AttrUnspec : NlaType
  | AttrFamilyId : NlaType
deriving DecidableEq, Repr

/-- Modelled from the spec: wire value of each attribute type (`impl
From<NlaType> for u16` in `ffi`, not under `src/`). -/
def NlaType.toWire : NlaType → Nat
  | .AttrUnspec => 0
  | .AttrFamilyId => 1

/-- Modelled from the spec: attribute-type decoding maps the wire `u16` back
to the enumeration, unrecognized values going to `AttrUnspec` (§6, §9). -/
def NlaType.fromWire (n : Nat) : NlaType :=
  if n = 1 then .AttrFamilyId else .AttrUnspec

/-- Modelled from the spec: `NlaType` is encoded as a `u16`, so its fixed
codec size is 2 bytes. -/
def NlaType.size : Nat := 2

mutual
/-- `struct NlAttrHdr { nla_len: u16, nla_type: NlaType, payload: NlAttrPayload }`
(`src/genlhdr.rs` lines 68-72).  `nla_len` is kept as a `Nat`; the `u16`
range shows up explicitly where the source casts (`as u16`). -/
inductive NlAttrHdr : Type where
  | mk : Nat → NlaType → NlAttrPayload → NlAttrHdr

/-- `enum NlAttrPayload { Bin(Vec<u8>), Parsed(Box<Vec<NlAttrHdr>>) }`
(`src/genlhdr.rs` lines 120-125). -/
inductive NlAttrPayload : Type where
  | Bin : List Nat → NlAttrPayload
  | Parsed : List NlAttrHdr → NlAttrPayload
end

/-- Field accessor for `nla_len`. -/
def NlAttrHdr.nla_len : NlAttrHdr → Nat
  | .mk l _ _ => l

/-- Field accessor for `nla_type`. -/
def NlAttrHdr.nla_type : NlAttrHdr → NlaType
  | .mk _ t _ => t

/-- Field accessor for `payload`. -/
def NlAttrHdr.payload : NlAttrHdr → NlAttrPayload
  | .mk _ _ p => p

mutual
/-- `NlAttrHdr::size` (`src/genlhdr.rs` lines 112-114):
`nla_len.size() + nla_type.size() + payload.size()`, the first two being
the fixed 2-byte `u16` sizes. -/
def NlAttrHdr.size : NlAttrHdr → Nat
  | .mk _ _ p => 2 + NlaType.size + NlAttrPayload.size p

/-- `NlAttrPayload::size` (`src/genlhdr.rs` lines 150-155): a `Bin` payload's
size is its exact byte count, a `Parsed` payload's size folds the children's
sizes. -/
def NlAttrPayload.size : NlAttrPayload → Nat
  | .Bin v => v.length
  | .Parsed ps => attrListSize ps

/-- The fold `p.iter().fold(0, |acc, x| acc + x.size())` over a child list. -/
def attrListSize : List NlAttrHdr → Nat
  | [] => 0
  | a :: rest => NlAttrHdr.size a + attrListSize rest
end

/-- Modelled from the spec: the `Nl` trait's `asize` default method from the
crate root (not under `src/`): the aligned size is the raw size rounded up
to the next multiple of 4 (§3). -/
def NlAttrHdr.asize (a : NlAttrHdr) : Nat := alignedSize a.size

/-- `NlAttrHdr::new` (`src/genlhdr.rs` lines 76-82): starts from the default
(`nla_len = 0`), sets type and payload, then sets `nla_len` to the given
value or, when absent, to `nla.asize() as u16` — the Rust `as u16` cast
truncates, modelled as `% 65536`. -/
def NlAttrHdr.new (nla_len : Option Nat) (ty : NlaType) (p : NlAttrPayload) : NlAttrHdr :=
  let nla := NlAttrHdr.mk 0 ty p
  NlAttrHdr.mk (nla_len.getD (nla.asize % 65536)) ty p

/-- `struct GenlHdr { cmd, version, reserved, attrs }` (`src/genlhdr.rs`
lines 6-11). -/
structure GenlHdr : Type where
  cmd : GenlCmds
  version : Nat
  reserved : Nat
  attrs : List NlAttrHdr

/-- `GenlHdr::new` (`src/genlhdr.rs` lines 15-22): `reserved` is hardwired
to 0. -/
def GenlHdr.new (cmd : GenlCmds) (version : Nat) (attrs : List NlAttrHdr) : GenlHdr :=
  { cmd := cmd, version := version, reserved := 0, attrs := attrs }

/-- `GenlHdr::size` (`src/genlhdr.rs` lines 58-63). -/
def GenlHdr.size (g : GenlHdr) : Nat :=
  GenlCmds.size + 1 + 2 + g.attrs.foldl (fun acc x => acc + x.size) 0

/-- Modelled from the spec: the primitive `u8` codec (crate root, not under
`src/`) writes the single byte, reduced to the `u8` range. -/
def serU8 (n : Nat) : List Nat := [n % 256]

/-- Modelled from the spec: the primitive `u16` codec (crate root, not under
`src/`) writes two bytes in native (little-endian) order, matching the byte
layout of the spec's concrete scenario (§6, §8). -/
def serU16 (n : Nat) : List Nat := [n % 256, n / 256 % 256]

/-- Modelled from the spec: the primitive raw-buffer codec `Vec<u8>::serialize`
(crate root, not under `src/`) writes the bytes then zero-pads to the 4-byte
alignment boundary (§4.4, §6). -/
def vecU8Serialize (v : List Nat) : List Nat :=
  v ++ List.replicate (alignedSize v.length - v.length) 0

mutual
/-- `NlAttrHdr::serialize` (`src/genlhdr.rs` lines 96-101): writes `nla_len`
and `nla_type` as `u16`s, then delegates to the payload codec.  No
recomputation of `nla_len` happens here: whatever is stored is written. -/
def NlAttrHdr.serialize : NlAttrHdr → List Nat
  | .mk len ty p => serU16 len ++ serU16 ty.toWire ++ NlAttrPayload.serialize p

/-- `NlAttrPayload::serialize` (`src/genlhdr.rs` lines 134-144): a `Bin`
payload goes through the padding raw-buffer codec; a `Parsed` payload
serializes each child in order with no extra padding around the list. -/
def NlAttrPayload.serialize : NlAttrPayload → List Nat
  | .Bin v => vecU8Serialize v
  | .Parsed ps => serAttrList ps

/-- The serialization loop over an attribute list (`for attr in ... { attr.serialize }`). -/
def serAttrList : List NlAttrHdr → List Nat
  | [] => []
  | a :: rest => NlAttrHdr.serialize a ++ serAttrList rest
end

/-- `GenlHdr::serialize` (`src/genlhdr.rs` lines 37-45): `cmd` and `version`
as `u8`s, `reserved` as `u16`, then each attribute in list order. -/
def GenlHdr.serialize (g : GenlHdr) : List Nat :=
  serU8 g.cmd.toWire ++ serU8 g.version ++ serU16 g.reserved ++ serAttrList g.attrs

/-- Modelled from the spec: `NlDeState` from the crate root (not under
`src/`): a read cursor over the input buffer plus the `usize` slot that
`set_usize` fills with an attribute's declared length to bound the payload
decode (§4.3, design note §76). -/
structure NlDeState : Type where
  buf : List Nat
  pos : Nat
  sz : Nat

/-- Modelled from the spec: `NlDeState::new` starts at position 0 with no
length bound set. -/
def NlDeState.new (b : List Nat) : NlDeState :=
  { buf := b, pos := 0, sz := 0 }

/-- Modelled from the spec: `NlDeState::set_usize` stores the declared
length that bounds the next payload decode. -/
def NlDeState.set_usize (s : NlDeState) (n : Nat) : NlDeState :=
  { s with sz := n }

/-- Modelled from the spec: the primitive `u8` decoder (crate root, not
under `src/`): reads one byte at the cursor, failing with `Truncated` when
the input ends mid-structure (§7). -/
def deU8 (s : NlDeState) : Except DeError (Nat × NlDeState) :=
  if s.pos + 1 ≤ s.buf.length then
    .ok (((s.buf.drop s.pos).take 1).getD 0 0, { s with pos := s.pos + 1 })
  else .error .Truncated

/-- Modelled from the spec: the primitive `u16` decoder (crate root, not
under `src/`): reads two bytes in native (little-endian) order, failing
with `Truncated` when fewer than two bytes remain (§7). -/
def deU16 (s : NlDeState) : Except DeError (Nat × NlDeState) :=
  if s.pos + 2 ≤ s.buf.length then
    .ok (((s.buf.drop s.pos).take 2).getD 0 0 + 256 * ((s.buf.drop s.pos).take 2).getD 1 0,
         { s with pos := s.pos + 2 })
  else .error .Truncated

/-- Modelled from the spec: `GenlCmds::deserialize` from `ffi` (not under
`src/`): reads the wire byte and maps it to the enumeration. -/
def GenlCmds.deserialize (s : NlDeState) : Except DeError (GenlCmds × NlDeState) :=
  match deU8 s with
  | .ok (w, s') => .ok (GenlCmds.fromWire w, s')
  | .error e => .error e

/-- Modelled from the spec: `NlaType::deserialize` from `ffi` (not under
`src/`): reads the wire `u16` and maps it to the enumeration. -/
def NlaType.deserialize (s : NlDeState) : Except DeError (NlaType × NlDeState) :=
  match deU16 s with
  | .ok (w, s') => .ok (NlaType.fromWire w, s')
  | .error e => .error e

/-- Modelled from the spec: the primitive raw-buffer decoder
`Vec<u8>::deserialize` (crate root, not under `src/`), reading the payload
window bounded by the declared length stored by `set_usize`: fails with
`LengthMismatch` when the declared length is smaller than the 4-byte
attribute header it must contain (§4.3), otherwise reads exactly
`declaredLength - 4` further bytes (§4.3, §4.4), failing with `Underrun`
when fewer remain (§4.4, §7). -/
def vecU8Deserialize (s : NlDeState) : Except DeError (List Nat × NlDeState) :=
  if s.sz < 4 then .error .LengthMismatch
  else if s.pos + (s.sz - 4) ≤ s.buf.length then
    .ok ((s.buf.drop s.pos).take (s.sz - 4), { s with pos := s.pos + (s.sz - 4) })
  else .error .Underrun

/-- `NlAttrPayload::deserialize` (`src/genlhdr.rs` lines 146-148): always
wraps the raw-buffer decode in `Bin`; the `Parsed` variant is never
produced by decoding. -/
def NlAttrPayload.deserialize (s : NlDeState) : Except DeError (NlAttrPayload × NlDeState) :=
  match vecU8Deserialize s with
  | .ok (v, s') => .ok (.Bin v, s')
  | .error e => .error e

/-- `NlAttrHdr::deserialize` (`src/genlhdr.rs` lines 103-110): reads
`nla_len` and `nla_type`, stores `nla_len` in the state via `set_usize`,
then decodes the payload under that bound. -/
def NlAttrHdr.deserialize (s : NlDeState) : Except DeError (NlAttrHdr × NlDeState) :=
  match deU16 s with
  | .error e => .error e
  | .ok (len, s₁) =>
    match NlaType.deserialize s₁ with
    | .error e => .error e
    | .ok (ty, s₂) =>
      match NlAttrPayload.deserialize (s₂.set_usize len) with
      | .error e => .error e
      | .ok (p, s₃) => .ok (NlAttrHdr.mk len ty p, s₃)

/-- A successful `NlAttrHdr::deserialize` leaves the buffer unchanged, has
read a declared length of at least 4, advances the cursor by the 4 header
bytes plus the `declaredLength - 4` payload-window bytes, and leaves the
length slot holding the declared length.  Stated as a `def` of
propositional type because the attribute loop's termination argument below
consumes it. -/
def NlAttrHdr.deserialize_step (s : NlDeState) (a : NlAttrHdr) (s' : NlDeState)
    (hm : NlAttrHdr.deserialize s = .ok (a, s')) :
    s'.buf = s.buf ∧ 4 ≤ a.nla_len ∧ s'.pos = s.pos + 4 + (a.nla_len - 4)
      ∧ s'.sz = a.nla_len := by
  unfold NlAttrHdr.deserialize at hm
  cases h1 : deU16 s with
  | error e => rw [h1] at hm; exact absurd hm (by simp)
  | ok r =>
    obtain ⟨len, s₁⟩ := r
    rw [h1] at hm
    simp only [] at hm
    unfold NlaType.deserialize at hm
    cases h2 : deU16 s₁ with
    | error e => rw [h2] at hm; exact absurd hm (by simp)
    | ok r2 =>
      obtain ⟨tyw, s₂⟩ := r2
      rw [h2] at hm
      simp only [] at hm
      unfold NlAttrPayload.deserialize at hm
      cases h3 : vecU8Deserialize (s₂.set_usize len) with
      | error e => rw [h3] at hm; exact absurd hm (by simp)
      | ok r3 =>
        obtain ⟨v, s₃⟩ := r3
        rw [h3] at hm
        simp only [Except.ok.injEq, Prod.mk.injEq] at hm
        obtain ⟨rfl, rfl⟩ := hm
        unfold deU16 at h1 h2
        unfold vecU8Deserialize NlDeState.set_usize at h3
        split at h1
        · simp only [Except.ok.injEq, Prod.mk.injEq] at h1
          obtain ⟨-, rfl⟩ := h1
          split at h2
          · simp only [Except.ok.injEq, Prod.mk.injEq] at h2
            obtain ⟨-, rfl⟩ := h2
            split at h3
            · exact absurd h3 (by simp)
            · split at h3
              · simp only [Except.ok.injEq, Prod.mk.injEq] at h3
                obtain ⟨-, rfl⟩ := h3
                refine ⟨rfl, ?_, ?_, ?_⟩ <;> simp_all [NlAttrHdr.nla_len]
              · exact absurd h3 (by simp)
          · exact absurd h2 (by simp)
        · exact absurd h1 (by simp)

/-- The attribute loop of `GenlHdr::deserialize` (`src/genlhdr.rs` lines
52-54): `while state.0.position() < state.0.get_ref().len() { attrs.push(...) }`. -/
def deAttrs (s : NlDeState) : Except DeError (List NlAttrHdr × NlDeState) :=
  if h : s.pos < s.buf.length then
    match hm : NlAttrHdr.deserialize s with
    | .error e => .error e
    | .ok (a, s') =>
      match deAttrs s' with
      | .error e => .error e
      | .ok (rest, s'') => .ok (a :: rest, s'')
  else .ok ([], s)
termination_by s.buf.length - s.pos
decreasing_by
  obtain ⟨hb, h4, hp, -⟩ := NlAttrHdr.deserialize_step s a s' hm
  rw [hb]
  omega

/-- `GenlHdr::deserialize` (`src/genlhdr.rs` lines 47-56): decodes `cmd`,
`version`, `reserved`, then attributes until the input is exhausted. -/
def GenlHdr.deserialize (s : NlDeState) : Except DeError (GenlHdr × NlDeState) :=
  match GenlCmds.deserialize s with
  | .error e => .error e
  | .ok (c, s₁) =>
    match deU8 s₁ with
    | .error e => .error e
    | .ok (v, s₂) =>
      match deU16 s₂ with
      | .error e => .error e
      | .ok (r, s₃) =>
        match deAttrs s₃ with
        | .error e => .error e
        | .ok (attrs, s₄) => .ok ({ cmd := c, version := v, reserved := r, attrs := attrs }, s₄)

/-- The shape of an attribute whose declared length is consistent with its
payload: `nla_len` is exactly the 4 fixed header bytes plus the number of
bytes its payload writes on the wire, and fits the 16-bit length field.
This is what `NlAttrHdr::new` produces for any payload whose aligned size
fits in a `u16`. -/
def AttrValid (a : NlAttrHdr) : Prop :=
  a.nla_len = 4 + a.payload.serialize.length ∧ a.nla_len < 65536

instance (a : NlAttrHdr) : Decidable (AttrValid a) := by
  unfold AttrValid
  infer_instance

/-- What decoding gives back for a well-formed attribute: the same declared
length and type, with the payload replaced by the binary window that was on
the wire. -/
def decodedAttr (a : NlAttrHdr) : NlAttrHdr :=
  .mk a.nla_len a.nla_type (.Bin a.payload.serialize)

/-- The (declared length, attribute type) pair of an attribute — the part
of an attribute the decoder reproduces exactly. -/
def attrKey (a : NlAttrHdr) : Nat × NlaType :=
  (a.nla_len, a.nla_type)

/-! ## Helper lemmas -/

theorem cmd_fromWire_toWire (c : GenlCmds) : GenlCmds.fromWire c.toWire = c := by
  cases c <;> rfl

theorem cmd_toWire_lt (c : GenlCmds) : c.toWire < 256 := by
  cases c <;> decide

theorem nlaType_fromWire_toWire (t : NlaType) : NlaType.fromWire t.toWire = t := by
  cases t <;> rfl

theorem nlaType_toWire_lt (t : NlaType) : t.toWire < 65536 := by
  cases t <;> decide

theorem serU16_eq (n : Nat) : serU16 n = [n % 256, n / 256 % 256] := rfl

theorem u16_bytes_roundtrip (n : Nat) (h : n < 65536) : n % 256 + 256 * (n / 256 % 256) = n := by
  omega

theorem deU8_drop (s : NlDeState) (b : Nat) (rest : List Nat)
    (h : s.buf.drop s.pos = b :: rest) :
    deU8 s = .ok (b, { s with pos := s.pos + 1 }) := by
  have hlen : s.pos + 1 ≤ s.buf.length := by
    have := congrArg List.length h
    simp [List.length_drop] at this
    omega
  unfold deU8
  rw [if_pos hlen, h]
  rfl

theorem deU16_drop (s : NlDeState) (b0 b1 : Nat) (rest : List Nat)
    (h : s.buf.drop s.pos = b0 :: b1 :: rest) :
    deU16 s = .ok (b0 + 256 * b1, { s with pos := s.pos + 2 }) := by
  have hlen : s.pos + 2 ≤ s.buf.length := by
    have := congrArg List.length h
    simp [List.length_drop] at this
    omega
  unfold deU16
  rw [if_pos hlen, h]
  rfl

theorem vecU8De_drop (s : NlDeState) (w rest : List Nat)
    (h : s.buf.drop s.pos = w ++ rest) (hw : w.length = s.sz - 4) (hsz : 4 ≤ s.sz)
    (hp : s.pos ≤ s.buf.length) :
    vecU8Deserialize s = .ok (w, { s with pos := s.pos + (s.sz - 4) }) := by
  have hlen : s.pos + (s.sz - 4) ≤ s.buf.length := by
    have := congrArg List.length h
    simp only [List.length_drop, List.length_append] at this
    omega
  unfold vecU8Deserialize
  rw [if_neg (by omega), if_pos hlen, h, ← hw, List.take_left]

theorem drop_after (s : NlDeState) (k : Nat) (l rest : List Nat)
    (h : s.buf.drop s.pos = l ++ rest) (hk : l.length = k) :
    s.buf.drop (s.pos + k) = rest := by
  rw [← List.drop_drop k s.pos s.buf, h, ← hk, List.drop_left]

theorem deAttrs_stop (s : NlDeState) (h : ¬ s.pos < s.buf.length) : deAttrs s = .ok ([], s) := by
  rw [deAttrs, dif_neg h]

theorem deAttrs_error (s : NlDeState) (e : DeError) (h : s.pos < s.buf.length)
    (hm : NlAttrHdr.deserialize s = .error e) : deAttrs s = .error e := by
  rw [deAttrs, dif_pos h]
  split
  · rename_i e' he
    rw [hm] at he
    cases he
    rfl
  · rename_i a s' he
    rw [hm] at he
    cases he

theorem deAttrs_cons (s : NlDeState) (a : NlAttrHdr) (s' : NlDeState) (h : s.pos < s.buf.length)
    (hm : NlAttrHdr.deserialize s = .ok (a, s')) :
    deAttrs s = match deAttrs s' with
      | .error e => .error e
      | .ok (rest, s'') => .ok (a :: rest, s'') := by
  rw [deAttrs, dif_pos h]
  split
  · rename_i e' he
    rw [hm] at he
    cases he
  · rename_i a₂ s₂ he
    rw [hm] at he
    cases he
    rfl

theorem attr_serialize_eq (len : Nat) (ty : NlaType) (p : NlAttrPayload) :
    NlAttrHdr.serialize (.mk len ty p) =
      len % 256 :: len / 256 % 256 :: ty.toWire % 256 :: ty.toWire / 256 % 256
        :: NlAttrPayload.serialize p := by
  rw [NlAttrHdr.serialize]
  rfl

theorem attr_serialize_length (a : NlAttrHdr) :
    a.serialize.length = 4 + a.payload.serialize.length := by
  obtain ⟨len, ty, p⟩ := a
  rw [attr_serialize_eq]
  simp [NlAttrHdr.payload]
  omega

/-- Decoding at a cursor that looks at the encoding of an attribute whose
declared length is consistent with its payload succeeds, reproduces the
declared length and type, yields the on-wire bytes as a `Bin` payload, and
advances the cursor by exactly the declared length. -/
theorem NlAttrHdr.deserialize_ser (s : NlDeState) (len : Nat) (ty : NlaType) (p : NlAttrPayload)
    (rest : List Nat)
    (h : s.buf.drop s.pos = NlAttrHdr.serialize (.mk len ty p) ++ rest)
    (hlen : len = 4 + (NlAttrPayload.serialize p).length) (hlt : len < 65536) :
    NlAttrHdr.deserialize s =
      .ok (.mk len ty (.Bin (NlAttrPayload.serialize p)), ⟨s.buf, s.pos + len, len⟩) := by
  rw [attr_serialize_eq] at h
  simp only [List.cons_append] at h
  have h1 := deU16_drop s (len % 256) (len / 256 % 256)
    (ty.toWire % 256 :: ty.toWire / 256 % 256 :: (NlAttrPayload.serialize p ++ rest)) h
  have hd2 : s.buf.drop (s.pos + 2)
      = ty.toWire % 256 :: ty.toWire / 256 % 256 :: (NlAttrPayload.serialize p ++ rest) :=
    drop_after s 2 [len % 256, len / 256 % 256] _ (by simpa using h) rfl
  have h2 := deU16_drop { s with pos := s.pos + 2 } (ty.toWire % 256) (ty.toWire / 256 % 256)
    (NlAttrPayload.serialize p ++ rest) hd2
  have hd3 : s.buf.drop (s.pos + 4) = NlAttrPayload.serialize p ++ rest := by
    have := drop_after { s with pos := s.pos + 2 } 2
      [ty.toWire % 256, ty.toWire / 256 % 256] _ (by simpa using hd2) rfl
    simpa [Nat.add_assoc] using this
  have hple : s.pos + 4 ≤ s.buf.length := by
    have := congrArg List.length h
    simp only [List.length_drop, List.length_cons, List.length_append] at this
    omega
  have h3 := vecU8De_drop ⟨s.buf, s.pos + 4, len⟩ (NlAttrPayload.serialize p) rest hd3
    (by simp only []; omega) (by simp only []; omega) hple
  unfold NlAttrHdr.deserialize
  rw [u16_bytes_roundtrip len hlt] at h1
  rw [h1]
  simp only []
  unfold NlaType.deserialize
  rw [u16_bytes_roundtrip ty.toWire (nlaType_toWire_lt ty)] at h2
  rw [h2]
  simp only [nlaType_fromWire_toWire]
  unfold NlAttrPayload.deserialize
  have hset : NlDeState.set_usize { s with pos := s.pos + 2 + 2 } len = ⟨s.buf, s.pos + 4, len⟩ := by
    simp [NlDeState.set_usize, Nat.add_assoc]
  rw [hset, h3]
  simp only []
  have : s.pos + 4 + (len - 4) = s.pos + len := by omega
  rw [this]

theorem serAttrList_eq_cons (a : NlAttrHdr) (rest : List NlAttrHdr) :
    serAttrList (a :: rest) = a.serialize ++ serAttrList rest := by
  rw [serAttrList]

/-- The attribute loop, run at a cursor whose remaining input is exactly the
encoding of a list of well-formed attributes, decodes all of them in order
(lengths and types intact, payloads as the on-wire binary windows) and
stops exactly at end-of-buffer. -/
theorem deAttrs_ser (attrs : List NlAttrHdr) (s : NlDeState)
    (h : s.buf.drop s.pos = serAttrList attrs)
    (hp : s.pos ≤ s.buf.length)
    (hv : ∀ a ∈ attrs, AttrValid a) :
    ∃ szf, deAttrs s = .ok (attrs.map decodedAttr, ⟨s.buf, s.buf.length, szf⟩) := by
  induction attrs generalizing s with
  | nil =>
    have hend : s.pos = s.buf.length := by
      have := congrArg List.length h
      simp only [List.length_drop, serAttrList, List.length_nil] at this
      omega
    refine ⟨s.sz, ?_⟩
    rw [deAttrs_stop s (by omega)]
    obtain ⟨buf, pos, sz⟩ := s
    simp only at hend
    rw [hend]
    simp
  | cons a rest ih =>
    obtain ⟨len, ty, p⟩ := a
    obtain ⟨hlen, hlt⟩ := hv _ (List.mem_cons_self _ _)
    simp only [NlAttrHdr.nla_len, NlAttrHdr.payload] at hlen hlt
    rw [serAttrList_eq_cons] at h
    have hlt' : s.pos < s.buf.length := by
      have := congrArg List.length h
      simp only [List.length_drop, List.length_append, attr_serialize_length,
        NlAttrHdr.payload] at this
      omega
    have hone := NlAttrHdr.deserialize_ser s len ty p (serAttrList rest) h hlen hlt
    have hd : (⟨s.buf, s.pos + len, len⟩ : NlDeState).buf.drop
        (⟨s.buf, s.pos + len, len⟩ : NlDeState).pos = serAttrList rest := by
      simp only []
      exact drop_after s len (NlAttrHdr.serialize (.mk len ty p)) _ h
        (by rw [attr_serialize_length]; simp only [NlAttrHdr.payload]; omega)
    have hp' : s.pos + len ≤ s.buf.length := by
      have := congrArg List.length h
      simp only [List.length_drop, List.length_append, attr_serialize_length,
        NlAttrHdr.payload] at this
      omega
    obtain ⟨szf, hrest⟩ := ih ⟨s.buf, s.pos + len, len⟩ hd hp'
      (fun a ha => hv a (List.mem_cons_of_mem _ ha))
    refine ⟨szf, ?_⟩
    rw [deAttrs_cons s _ _ hlt' hone, hrest]
    simp [decodedAttr, NlAttrHdr.nla_len, NlAttrHdr.nla_type, NlAttrHdr.payload]

theorem genl_serialize_eq (c : GenlCmds) (v r : Nat) (attrs : List NlAttrHdr) :
    GenlHdr.serialize ⟨c, v, r, attrs⟩ =
      c.toWire % 256 :: v % 256 :: r % 256 :: r / 256 % 256 :: serAttrList attrs := by
  simp [GenlHdr.serialize, serU8, serU16]

/-- Full message decode of an encoded header: the command, version and
reserved fields come back exactly, each well-formed attribute comes back
as its decoded form, and the cursor stops exactly at end-of-buffer. -/
theorem genl_decode_aux (c : GenlCmds) (v r : Nat) (attrs : List NlAttrHdr)
    (hv : v < 256) (hr : r < 65536) (ha : ∀ a ∈ attrs, AttrValid a) :
    ∃ szf, GenlHdr.deserialize (NlDeState.new (GenlHdr.serialize ⟨c, v, r, attrs⟩)) =
      .ok (⟨c, v, r, attrs.map decodedAttr⟩,
        ⟨GenlHdr.serialize ⟨c, v, r, attrs⟩, (GenlHdr.serialize ⟨c, v, r, attrs⟩).length, szf⟩) := by
  rw [genl_serialize_eq]
  have h0 : deU8 ⟨c.toWire % 256 :: v % 256 :: r % 256 :: r / 256 % 256 :: serAttrList attrs, 0, 0⟩
      = .ok (c.toWire % 256,
          ⟨c.toWire % 256 :: v % 256 :: r % 256 :: r / 256 % 256 :: serAttrList attrs, 1, 0⟩) := by
    simpa using deU8_drop
      ⟨c.toWire % 256 :: v % 256 :: r % 256 :: r / 256 % 256 :: serAttrList attrs, 0, 0⟩
      (c.toWire % 256) (v % 256 :: r % 256 :: r / 256 % 256 :: serAttrList attrs) rfl
  have h1 : deU8 ⟨c.toWire % 256 :: v % 256 :: r % 256 :: r / 256 % 256 :: serAttrList attrs, 1, 0⟩
      = .ok (v % 256,
          ⟨c.toWire % 256 :: v % 256 :: r % 256 :: r / 256 % 256 :: serAttrList attrs, 2, 0⟩) := by
    simpa using deU8_drop
      ⟨c.toWire % 256 :: v % 256 :: r % 256 :: r / 256 % 256 :: serAttrList attrs, 1, 0⟩
      (v % 256) (r % 256 :: r / 256 % 256 :: serAttrList attrs) rfl
  have h2 : deU16 ⟨c.toWire % 256 :: v % 256 :: r % 256 :: r / 256 % 256 :: serAttrList attrs, 2, 0⟩
      = .ok (r,
          ⟨c.toWire % 256 :: v % 256 :: r % 256 :: r / 256 % 256 :: serAttrList attrs, 4, 0⟩) := by
    have := deU16_drop
      ⟨c.toWire % 256 :: v % 256 :: r % 256 :: r / 256 % 256 :: serAttrList attrs, 2, 0⟩
      (r % 256) (r / 256 % 256) (serAttrList attrs) rfl
    rw [u16_bytes_roundtrip r hr] at this
    simpa using this
  obtain ⟨szf, hA⟩ := deAttrs_ser attrs
    ⟨c.toWire % 256 :: v % 256 :: r % 256 :: r / 256 % 256 :: serAttrList attrs, 4, 0⟩
    rfl (by simp) ha
  simp only [] at hA
  refine ⟨szf, ?_⟩
  set B := c.toWire % 256 :: v % 256 :: r % 256 :: r / 256 % 256 :: serAttrList attrs with hB
  unfold GenlHdr.deserialize GenlCmds.deserialize NlDeState.new
  rw [h0]
  simp only []
  rw [Nat.mod_eq_of_lt (cmd_toWire_lt c), cmd_fromWire_toWire]
  rw [h1]
  simp only []
  rw [Nat.mod_eq_of_lt hv]
  rw [h2]
  simp only []
  rw [hA]

/-- When fewer than the 4 fixed header bytes remain, attribute decode fails
with `Truncated` while reading `nla_len` or `nla_type`. -/
theorem attr_deserialize_trunc (s : NlDeState) (h : s.buf.length < s.pos + 4) :
    NlAttrHdr.deserialize s = .error .Truncated := by
  unfold NlAttrHdr.deserialize NlaType.deserialize deU16
  by_cases h1 : s.pos + 2 ≤ s.buf.length
  · rw [if_pos h1]
    simp only []
    rw [if_neg (by omega)]
  · rw [if_neg h1]

theorem deAttrs_trunc (s : NlDeState) (hlt : s.pos < s.buf.length)
    (h : s.buf.length < s.pos + 4) : deAttrs s = .error .Truncated :=
  deAttrs_error s _ hlt (attr_deserialize_trunc s h)

/-- Unfolding the fixed-field part of `GenlHdr::deserialize` on any buffer
with at least 4 bytes: the command comes from byte 0, the version from
byte 1, the reserved field verbatim from bytes 2 and 3 (native endian),
and the rest is handed to the attribute loop starting at position 4. -/
theorem genl_decode_to_attrs (c0 v0 r0 r1 : Nat) (tail : List Nat) :
    GenlHdr.deserialize (NlDeState.new (c0 :: v0 :: r0 :: r1 :: tail)) =
      match deAttrs ⟨c0 :: v0 :: r0 :: r1 :: tail, 4, 0⟩ with
      | .error e => .error e
      | .ok (attrs, s₄) => .ok (⟨GenlCmds.fromWire c0, v0, r0 + 256 * r1, attrs⟩, s₄) := by
  have h0 : deU8 ⟨c0 :: v0 :: r0 :: r1 :: tail, 0, 0⟩
      = .ok (c0, ⟨c0 :: v0 :: r0 :: r1 :: tail, 1, 0⟩) := by
    simpa using deU8_drop ⟨c0 :: v0 :: r0 :: r1 :: tail, 0, 0⟩ c0 (v0 :: r0 :: r1 :: tail) rfl
  have h1 : deU8 ⟨c0 :: v0 :: r0 :: r1 :: tail, 1, 0⟩
      = .ok (v0, ⟨c0 :: v0 :: r0 :: r1 :: tail, 2, 0⟩) := by
    simpa using deU8_drop ⟨c0 :: v0 :: r0 :: r1 :: tail, 1, 0⟩ v0 (r0 :: r1 :: tail) rfl
  have h2 : deU16 ⟨c0 :: v0 :: r0 :: r1 :: tail, 2, 0⟩
      = .ok (r0 + 256 * r1, ⟨c0 :: v0 :: r0 :: r1 :: tail, 4, 0⟩) := by
    simpa using deU16_drop ⟨c0 :: v0 :: r0 :: r1 :: tail, 2, 0⟩ r0 r1 tail rfl
  unfold GenlHdr.deserialize GenlCmds.deserialize NlDeState.new
  rw [h0]
  simp only []
  rw [h1]
  simp only []
  rw [h2]

/-- A buffer shorter than the 4 fixed header bytes makes the whole message
decode fail with `Truncated` before any attribute is attempted. -/
theorem genl_decode_short (buf : List Nat) (h : buf.length < 4) :
    GenlHdr.deserialize (NlDeState.new buf) = .error .Truncated := by
  rcases buf with _ | ⟨b0, _ | ⟨b1, _ | ⟨b2, _ | ⟨b3, tail⟩⟩⟩⟩
  · rfl
  · rfl
  · rfl
  · rfl
  · simp only [List.length_cons] at h
    omega

theorem foldl_add_size (l : List NlAttrHdr) (n : Nat) :
    l.foldl (fun acc x => acc + x.size) n = n + (l.map NlAttrHdr.size).sum := by
  induction l generalizing n with
  | nil => simp
  | cons a t ih =>
    simp only [List.foldl_cons, List.map_cons, List.sum_cons, ih]
    omega

theorem attrListSize_eq_sum (l : List NlAttrHdr) :
    attrListSize l = (l.map NlAttrHdr.size).sum := by
  induction l with
  | nil => simp [attrListSize]
  | cons a t ih => simp [attrListSize, ih]

theorem attrKey_decodedAttr (a : NlAttrHdr) : attrKey (decodedAttr a) = attrKey a := rfl

theorem map_attrKey_decodedAttr (l : List NlAttrHdr) :
    (l.map decodedAttr).map attrKey = l.map attrKey := by
  induction l with
  | nil => rfl
  | cons a t ih => simp [ih, attrKey_decodedAttr]

/-! ## Claims -/

/-- C1: for every valid `MessageHeader` (each attribute's declared length
consistent with its payload, and `version`/`reserved` in their field
ranges), decoding the encoding reproduces `command`, `version`, `reserved`,
and the `attrType`/`declaredLength` pair of every attribute, in order. -/
theorem genlhdr_roundtrip_fields (c : GenlCmds) (v r : Nat) (attrs : List NlAttrHdr)
    (hv : v < 256) (hr : r < 65536) (ha : ∀ a ∈ attrs, AttrValid a) :
    ∃ g' s', GenlHdr.deserialize (NlDeState.new (GenlHdr.serialize ⟨c, v, r, attrs⟩)) = .ok (g', s')
      ∧ g'.cmd = c ∧ g'.version = v ∧ g'.reserved = r
      ∧ g'.attrs.map attrKey = attrs.map attrKey := by
  obtain ⟨szf, h⟩ := genl_decode_aux c v r attrs hv hr ha
  exact ⟨_, _, h, rfl, rfl, rfl, map_attrKey_decodedAttr attrs⟩

/-- Witness for C1 at the repository's own test message. -/
theorem genlhdr_roundtrip_fields_witness :
    ∃ g' s', GenlHdr.deserialize (NlDeState.new (GenlHdr.serialize
        ⟨.CmdGetops, 2, 0, [NlAttrHdr.new none .AttrFamilyId (.Bin [0, 1, 2, 3, 4, 5])]⟩))
      = .ok (g', s')
      ∧ g'.cmd = .CmdGetops ∧ g'.version = 2 ∧ g'.reserved = 0
      ∧ g'.attrs.map attrKey
          = [NlAttrHdr.new none .AttrFamilyId (.Bin [0, 1, 2, 3, 4, 5])].map attrKey :=
  genlhdr_roundtrip_fields .CmdGetops 2 0 [NlAttrHdr.new none .AttrFamilyId (.Bin [0, 1, 2, 3, 4, 5])]
    (by decide) (by decide) (by decide)

/-- C2: after the 2-byte declared length and 2-byte type are read, the
payload decode is bounded by the declared length — on success the cursor
has moved exactly 4 header bytes plus `declaredLength - 4` payload bytes,
so at most `declaredLength - 4` bytes beyond the header — and the bound
does not leak: the result of an attribute decode is independent of
whatever bound a previous attribute left in the state, because `set_usize`
installs a fresh bound before every payload decode. -/
theorem attr_decode_bound_no_leak (buf : List Nat) (pos sz₁ sz₂ : Nat) :
    NlAttrHdr.deserialize ⟨buf, pos, sz₁⟩ = NlAttrHdr.deserialize ⟨buf, pos, sz₂⟩
    ∧ ∀ a s', NlAttrHdr.deserialize ⟨buf, pos, sz₁⟩ = .ok (a, s') →
        s'.pos = pos + 4 + (a.nla_len - 4) ∧ 4 ≤ a.nla_len := by
  constructor
  · unfold NlAttrHdr.deserialize NlaType.deserialize NlAttrPayload.deserialize deU16
      NlDeState.set_usize vecU8Deserialize
    by_cases h1 : pos + 2 ≤ buf.length
    · by_cases h2 : pos + 2 + 2 ≤ buf.length
      · simp [h1, h2]
      · simp [h1, h2]
    · simp [h1]
  · intro a s' hma
    obtain ⟨-, h4, hp, -⟩ := NlAttrHdr.deserialize_step ⟨buf, pos, sz₁⟩ a s' hma
    exact ⟨hp, h4⟩

/-- Witness for C2: two different stale bounds decode the same attribute,
and the cursor lands exactly past the declared length. -/
theorem attr_decode_bound_no_leak_witness :
    (NlAttrHdr.deserialize ⟨[8, 0, 1, 0, 9, 9, 9, 9], 0, 0⟩
      = NlAttrHdr.deserialize ⟨[8, 0, 1, 0, 9, 9, 9, 9], 0, 77⟩)
    ∧ ((⟨[8, 0, 1, 0, 9, 9, 9, 9], 8, 8⟩ : NlDeState).pos
        = 0 + 4 + ((NlAttrHdr.mk 8 .AttrFamilyId (.Bin [9, 9, 9, 9])).nla_len - 4)
      ∧ 4 ≤ (NlAttrHdr.mk 8 .AttrFamilyId (.Bin [9, 9, 9, 9])).nla_len) :=
  ⟨(attr_decode_bound_no_leak [8, 0, 1, 0, 9, 9, 9, 9] 0 0 77).1,
   (attr_decode_bound_no_leak [8, 0, 1, 0, 9, 9, 9, 9] 0 0 77).2
     (NlAttrHdr.mk 8 .AttrFamilyId (.Bin [9, 9, 9, 9])) ⟨[8, 0, 1, 0, 9, 9, 9, 9], 8, 8⟩ rfl⟩

/-- C3: attribute decode fails with `LengthMismatch` whenever the declared
length read from the first two bytes at the cursor is smaller than the
4-byte length-plus-type header itself (given those 4 header bytes are
present, so the reads before the check succeed). -/
theorem attr_decode_length_mismatch (buf : List Nat) (pos sz len : Nat)
    (h4 : pos + 4 ≤ buf.length)
    (hlen : ((buf.drop pos).take 2).getD 0 0 + 256 * ((buf.drop pos).take 2).getD 1 0 = len)
    (hsmall : len < 4) :
    NlAttrHdr.deserialize ⟨buf, pos, sz⟩ = .error .LengthMismatch := by
  unfold NlAttrHdr.deserialize NlaType.deserialize NlAttrPayload.deserialize deU16
    NlDeState.set_usize vecU8Deserialize
  simp only []
  rw [if_pos (show pos + 2 ≤ buf.length by omega)]
  simp only []
  rw [if_pos (show pos + 2 + 2 ≤ buf.length by omega)]
  simp only []
  rw [hlen, if_pos hsmall]

/-- Witness for C3: a declared length of 2 is rejected. -/
theorem attr_decode_length_mismatch_witness :
    NlAttrHdr.deserialize ⟨[2, 0, 0, 0], 0, 0⟩ = .error .LengthMismatch :=
  attr_decode_length_mismatch [2, 0, 0, 0] 0 0 2 (by decide) (by decide) (by decide)

/-- C4: the concrete scenario from the repository's tests: encoding the
GETOPS (wire value 3) message with version 2 and one FAMILY_ID attribute
over `Bin [0,1,2,3,4,5]` with defaulted declared length gives exactly the
16 bytes `03 02 00 00 0C 00 01 00 00 01 02 03 04 05 00 00`, and decoding
those bytes yields `CmdGetops` (wire value 3), version 2, reserved 0, and
one attribute with declared length 12, type `AttrFamilyId` and payload
bytes `[0,1,2,3,4,5,0,0]`. -/
theorem concrete_getops_scenario :
    GenlHdr.serialize
        (GenlHdr.new .CmdGetops 2 [NlAttrHdr.new none .AttrFamilyId (.Bin [0, 1, 2, 3, 4, 5])])
      = [3, 2, 0, 0, 12, 0, 1, 0, 0, 1, 2, 3, 4, 5, 0, 0]
    ∧ GenlCmds.toWire .CmdGetops = 3
    ∧ ∃ s', GenlHdr.deserialize (NlDeState.new [3, 2, 0, 0, 12, 0, 1, 0, 0, 1, 2, 3, 4, 5, 0, 0])
        = .ok (⟨.CmdGetops, 2, 0, [.mk 12 .AttrFamilyId (.Bin [0, 1, 2, 3, 4, 5, 0, 0])]⟩, s') := by
  refine ⟨by decide, rfl, ?_⟩
  obtain ⟨szf, h⟩ := genl_decode_aux .CmdGetops 2 0
    [NlAttrHdr.new none .AttrFamilyId (.Bin [0, 1, 2, 3, 4, 5])] (by decide) (by decide) (by decide)
  rw [show GenlHdr.serialize
      ⟨.CmdGetops, 2, 0, [NlAttrHdr.new none .AttrFamilyId (.Bin [0, 1, 2, 3, 4, 5])]⟩
      = [3, 2, 0, 0, 12, 0, 1, 0, 0, 1, 2, 3, 4, 5, 0, 0] from by decide] at h
  exact ⟨_, h⟩

/-- C5: the attribute loop runs while the cursor is before end-of-input: a
message with two well-formed attributes decodes to both, in order, with
the cursor stopping exactly at end-of-buffer; appending 1 to 3 trailing
bytes after one full attribute makes the decode fail with `Truncated`. -/
theorem two_attrs_then_trailing (c : GenlCmds) (v r : Nat) (a₁ a₂ : NlAttrHdr)
    (extra : List Nat) (hv : v < 256) (hr : r < 65536)
    (h₁ : AttrValid a₁) (h₂ : AttrValid a₂)
    (he₁ : 1 ≤ extra.length) (he₃ : extra.length ≤ 3) :
    (∃ g' s', GenlHdr.deserialize (NlDeState.new (GenlHdr.serialize ⟨c, v, r, [a₁, a₂]⟩))
        = .ok (g', s')
      ∧ g'.attrs.map attrKey = [a₁, a₂].map attrKey
      ∧ s'.pos = (GenlHdr.serialize ⟨c, v, r, [a₁, a₂]⟩).length)
    ∧ GenlHdr.deserialize (NlDeState.new (GenlHdr.serialize ⟨c, v, r, [a₁]⟩ ++ extra))
        = .error .Truncated := by
  constructor
  · obtain ⟨szf, h⟩ := genl_decode_aux c v r [a₁, a₂] hv hr (by
      intro a ha
      simp only [List.mem_cons, List.not_mem_nil, or_false] at ha
      rcases ha with rfl | rfl <;> assumption)
    exact ⟨_, _, h, map_attrKey_decodedAttr [a₁, a₂], rfl⟩
  · obtain ⟨len, ty, p⟩ := a₁
    obtain ⟨hlen, hlt⟩ := h₁
    simp only [NlAttrHdr.nla_len, NlAttrHdr.payload] at hlen hlt
    rw [genl_serialize_eq]
    simp only [List.cons_append]
    rw [genl_decode_to_attrs]
    set B := c.toWire % 256 :: v % 256 :: r % 256 :: r / 256 % 256
      :: (serAttrList [NlAttrHdr.mk len ty p] ++ extra) with hB
    have hd : B.drop 4 = NlAttrHdr.serialize (.mk len ty p) ++ extra := by
      rw [hB]
      simp [serAttrList]
    have hsl : (NlAttrHdr.serialize (NlAttrHdr.mk len ty p)).length
        = 4 + (NlAttrPayload.serialize p).length := by
      have := attr_serialize_length (NlAttrHdr.mk len ty p)
      simpa [NlAttrHdr.payload] using this
    have hBlen : B.length = 4 + ((NlAttrHdr.serialize (NlAttrHdr.mk len ty p)).length
        + extra.length) := by
      rw [hB]
      simp [serAttrList]
      omega
    have hone := NlAttrHdr.deserialize_ser ⟨B, 4, 0⟩ len ty p extra hd hlen hlt
    have h4B : (4 : Nat) < B.length := by omega
    have hcons := deAttrs_cons ⟨B, 4, 0⟩ _ _ h4B hone
    have htr := deAttrs_trunc ⟨B, 4 + len, len⟩ (by simp only []; omega) (by simp only []; omega)
    rw [htr] at hcons
    simp only [] at hcons
    rw [hcons]

/-- Witness for C5 with two identical 8-byte attributes and one trailing byte. -/
theorem two_attrs_then_trailing_witness :
    (∃ g' s', GenlHdr.deserialize (NlDeState.new (GenlHdr.serialize
        ⟨.CmdGetops, 2, 0, [NlAttrHdr.new none .AttrFamilyId (.Bin [1, 2, 3, 4]),
          NlAttrHdr.new none .AttrFamilyId (.Bin [1, 2, 3, 4])]⟩)) = .ok (g', s')
      ∧ g'.attrs.map attrKey
          = [NlAttrHdr.new none .AttrFamilyId (.Bin [1, 2, 3, 4]),
             NlAttrHdr.new none .AttrFamilyId (.Bin [1, 2, 3, 4])].map attrKey
      ∧ s'.pos = (GenlHdr.serialize ⟨.CmdGetops, 2, 0,
          [NlAttrHdr.new none .AttrFamilyId (.Bin [1, 2, 3, 4]),
           NlAttrHdr.new none .AttrFamilyId (.Bin [1, 2, 3, 4])]⟩).length)
    ∧ GenlHdr.deserialize (NlDeState.new (GenlHdr.serialize
        ⟨.CmdGetops, 2, 0, [NlAttrHdr.new none .AttrFamilyId (.Bin [1, 2, 3, 4])]⟩ ++ [0]))
        = .error .Truncated :=
  two_attrs_then_trailing .CmdGetops 2 0
    (NlAttrHdr.new none .AttrFamilyId (.Bin [1, 2, 3, 4]))
    (NlAttrHdr.new none .AttrFamilyId (.Bin [1, 2, 3, 4])) [0]
    (by decide) (by decide) (by decide) (by decide) (by decide) (by decide)

/-- Closed-form equation for `NlAttrHdr::size` on a constructed attribute. -/
theorem NlAttrHdr.size_mk (len : Nat) (ty : NlaType) (p : NlAttrPayload) :
    NlAttrHdr.size (.mk len ty p) = 2 + NlaType.size + p.size := by
  rw [NlAttrHdr.size]

/-- Closed-form equation for `NlAttrPayload::size` on a binary payload. -/
theorem NlAttrPayload.size_bin (v : List Nat) : (NlAttrPayload.Bin v).size = v.length := by
  rw [NlAttrPayload.size]

/-- Closed-form equation for `NlAttrPayload::size` on a nested payload. -/
theorem NlAttrPayload.size_parsed (ps : List NlAttrHdr) :
    (NlAttrPayload.Parsed ps).size = attrListSize ps := by
  rw [NlAttrPayload.size]

/-- What `NlAttrHdr::new` stores when no explicit length is supplied:
`nla.asize() as u16`, i.e. the aligned size reduced to the `u16` range. -/
theorem NlAttrHdr.new_none_len (ty : NlaType) (p : NlAttrPayload) :
    (NlAttrHdr.new none ty p).nla_len
      = alignedSize (NlAttrHdr.size (.mk 0 ty p)) % 65536 := rfl

/-- C6 counterexample: the claim "constructing without an explicit declared
length always stores the aligned size" fails once the aligned size leaves
the 16-bit range: a binary payload of 65532 bytes gives an aligned
attribute size of 65536, but the stored `nla_len` is 0, because
`nla.asize() as u16` truncates. -/
theorem attr_new_aligned_cex :
    ¬ ((NlAttrHdr.new none .AttrUnspec (.Bin (List.replicate 65532 0))).nla_len
        = alignedSize (4 + (NlAttrPayload.Bin (List.replicate 65532 0)).size)) := by
  have hs : (NlAttrPayload.Bin (List.replicate 65532 0)).size = 65532 :=
    (NlAttrPayload.size_bin _).trans (List.length_replicate 65532 0)
  have h2 : NlAttrHdr.size (.mk 0 .AttrUnspec (.Bin (List.replicate 65532 0))) = 65536 :=
    (NlAttrHdr.size_mk 0 .AttrUnspec _).trans
      ((congrArg (fun n => 2 + NlaType.size + n) hs).trans (by norm_num [NlaType.size]))
  have hlhs : (NlAttrHdr.new none .AttrUnspec (.Bin (List.replicate 65532 0))).nla_len = 0 :=
    (NlAttrHdr.new_none_len _ _).trans
      ((congrArg (fun n => alignedSize n % 65536) h2).trans (by norm_num [alignedSize]))
  have hrhs : alignedSize (4 + (NlAttrPayload.Bin (List.replicate 65532 0)).size) = 65536 :=
    (congrArg (fun n => alignedSize (4 + n)) hs).trans (by norm_num [alignedSize])
  intro hEq
  exact absurd ((hlhs.symm.trans hEq).trans hrhs) (by norm_num)

/-- C6 as amended: when the attribute's aligned size (the 4 fixed header
bytes plus the payload's raw size, rounded up to the next multiple of 4)
fits the 16-bit length field, constructing without an explicit declared
length stores exactly that aligned size. -/
theorem attr_new_aligned_of_fits (ty : NlaType) (p : NlAttrPayload)
    (h : alignedSize (4 + p.size) < 65536) :
    (NlAttrHdr.new none ty p).nla_len = alignedSize (4 + p.size) := by
  have h44 : 2 + NlaType.size + p.size = 4 + p.size := by norm_num [NlaType.size]
  rw [NlAttrHdr.new_none_len, NlAttrHdr.size_mk, h44]
  exact Nat.mod_eq_of_lt h

/-- Witness for the amended C6 at the test payload: aligned size 12 is stored. -/
theorem attr_new_aligned_of_fits_witness :
    (NlAttrHdr.new none .AttrFamilyId (.Bin [0, 1, 2, 3, 4, 5])).nla_len
      = alignedSize (4 + (NlAttrPayload.Bin [0, 1, 2, 3, 4, 5]).size) :=
  attr_new_aligned_of_fits .AttrFamilyId (.Bin [0, 1, 2, 3, 4, 5]) (by decide)

/-- C7: the constructor hardwires `reserved` to 0 (it is not a constructor
argument), and decode preserves `reserved` verbatim: whenever a message
decode succeeds, the decoded `reserved` equals the 16-bit native-endian
value formed from wire bytes 2 and 3. -/
theorem reserved_zero_and_decoded_verbatim :
    (∀ (c : GenlCmds) (v : Nat) (attrs : List NlAttrHdr), (GenlHdr.new c v attrs).reserved = 0)
    ∧ ∀ (buf : List Nat) (g' : GenlHdr) (s' : NlDeState),
        GenlHdr.deserialize (NlDeState.new buf) = .ok (g', s') →
        g'.reserved = buf.getD 2 0 + 256 * buf.getD 3 0 := by
  constructor
  · intro c v attrs
    rfl
  · intro buf g' s' h
    rcases buf with _ | ⟨b0, _ | ⟨b1, _ | ⟨b2, _ | ⟨b3, tail⟩⟩⟩⟩
    · rw [genl_decode_short [] (by decide)] at h
      exact absurd h (by simp)
    · rw [genl_decode_short [b0] (by simp)] at h
      exact absurd h (by simp)
    · rw [genl_decode_short [b0, b1] (by simp)] at h
      exact absurd h (by simp)
    · rw [genl_decode_short [b0, b1, b2] (by simp)] at h
      exact absurd h (by simp)
    · rw [genl_decode_to_attrs] at h
      cases hd : deAttrs ⟨b0 :: b1 :: b2 :: b3 :: tail, 4, 0⟩ with
      | error e =>
        rw [hd] at h
        exact absurd h (by simp)
      | ok pr =>
        obtain ⟨attrs, s₄⟩ := pr
        rw [hd] at h
        simp only [Except.ok.injEq, Prod.mk.injEq] at h
        obtain ⟨h1, h2⟩ := h
        subst h1
        simp [List.getD]

/-- Witness for C7: construction zeroes `reserved`, and the decode of a
4-byte message with reserved bytes `01 02` yields reserved `513`. -/
theorem reserved_zero_and_decoded_verbatim_witness :
    (GenlHdr.new .CmdGetops 2 []).reserved = 0
    ∧ (⟨.CmdGetops, 2, 513, []⟩ : GenlHdr).reserved
        = [3, 2, 1, 2].getD 2 0 + 256 * [3, 2, 1, 2].getD 3 0 := by
  have hdec : GenlHdr.deserialize (NlDeState.new [3, 2, 1, 2])
      = .ok (⟨.CmdGetops, 2, 513, []⟩, ⟨[3, 2, 1, 2], 4, 0⟩) := by
    rw [genl_decode_to_attrs 3 2 1 2 [], deAttrs_stop ⟨[3, 2, 1, 2], 4, 0⟩ (by decide)]
    norm_num [GenlCmds.fromWire]
  exact ⟨reserved_zero_and_decoded_verbatim.1 .CmdGetops 2 [],
    reserved_zero_and_decoded_verbatim.2 [3, 2, 1, 2] ⟨.CmdGetops, 2, 513, []⟩
      ⟨[3, 2, 1, 2], 4, 0⟩ hdec⟩

/-- C8: whenever the payload decode succeeds it produces a `Bin` payload
holding exactly the bytes of the declared-length window (the
`declaredLength - 4` bytes at the cursor, all of which are present), and
never the `Parsed` variant, regardless of the attribute type. -/
theorem payload_decode_always_binary (s : NlDeState) (p : NlAttrPayload) (s' : NlDeState)
    (h : NlAttrPayload.deserialize s = .ok (p, s')) :
    p = .Bin ((s.buf.drop s.pos).take (s.sz - 4))
    ∧ ((s.buf.drop s.pos).take (s.sz - 4)).length = s.sz - 4
    ∧ ∀ ps, p ≠ .Parsed ps := by
  unfold NlAttrPayload.deserialize vecU8Deserialize at h
  by_cases hA : s.sz < 4
  · rw [if_pos hA] at h
    exact absurd h (by simp)
  · rw [if_neg hA] at h
    by_cases hB : s.pos + (s.sz - 4) ≤ s.buf.length
    · rw [if_pos hB] at h
      simp only [Except.ok.injEq, Prod.mk.injEq] at h
      obtain ⟨h1, -⟩ := h
      refine ⟨h1.symm, ?_, ?_⟩
      · simp only [List.length_take, List.length_drop]
        omega
      · intro ps
        rw [← h1]
        simp
    · rw [if_neg hB] at h
      exact absurd h (by simp)

/-- Witness for C8: a 6-byte declared length over buffer `[7, 8]` decodes
as the binary window `[7, 8]`. -/
theorem payload_decode_always_binary_witness :
    NlAttrPayload.Bin [7, 8]
        = .Bin ((((⟨[7, 8], 0, 6⟩ : NlDeState).buf.drop 0).take (6 - 4)))
    ∧ ((((⟨[7, 8], 0, 6⟩ : NlDeState).buf.drop 0).take (6 - 4))).length = 6 - 4
    ∧ ∀ ps, NlAttrPayload.Bin [7, 8] ≠ .Parsed ps :=
  payload_decode_always_binary ⟨[7, 8], 0, 6⟩ (.Bin [7, 8]) ⟨[7, 8], 2, 6⟩ rfl

/-- C9: the raw-size accounting: a message's raw size is command size (1)
plus version size (1) plus reserved size (2) plus the sum of its
attributes' raw sizes; an attribute's raw size is 2 + 2 plus its payload's
raw size; a `Bin` payload's raw size is its exact unpadded byte count; a
`Parsed` payload's raw size is the sum of its children's raw sizes. -/
theorem size_decomposition (g : GenlHdr) (len : Nat) (ty : NlaType) (p : NlAttrPayload)
    (v : List Nat) (ps : List NlAttrHdr) :
    g.size = GenlCmds.size + 1 + 2 + (g.attrs.map NlAttrHdr.size).sum
    ∧ (NlAttrHdr.mk len ty p).size = 2 + 2 + p.size
    ∧ (NlAttrPayload.Bin v).size = v.length
    ∧ (NlAttrPayload.Parsed ps).size = (ps.map NlAttrHdr.size).sum := by
  refine ⟨?_, ?_, NlAttrPayload.size_bin v, ?_⟩
  · rw [GenlHdr.size, foldl_add_size]
    omega
  · rw [NlAttrHdr.size_mk]
    norm_num [NlaType.size]
  · rw [NlAttrPayload.size_parsed, attrListSize_eq_sum]

/-- C10: when the defaulted declared length's aligned size exceeds 65535,
the stored `nla_len` is the aligned size reduced modulo 2^16 — the `as u16`
cast truncates silently instead of failing, so the stored value differs
from the true aligned size. -/
theorem attr_new_truncates_mod (ty : NlaType) (p : NlAttrPayload)
    (h : 65535 < alignedSize (4 + p.size)) :
    (NlAttrHdr.new none ty p).nla_len = alignedSize (4 + p.size) % 65536
    ∧ (NlAttrHdr.new none ty p).nla_len ≠ alignedSize (4 + p.size) := by
  have h44 : 2 + NlaType.size + p.size = 4 + p.size := by norm_num [NlaType.size]
  have hbase : (NlAttrHdr.new none ty p).nla_len = alignedSize (4 + p.size) % 65536 := by
    rw [NlAttrHdr.new_none_len, NlAttrHdr.size_mk, h44]
  refine ⟨hbase, ?_⟩
  rw [hbase]
  omega

/-- Witness for C10: a 65533-byte binary payload has aligned attribute size
65540, and the stored length is 65540 mod 2^16 = 4. -/
theorem attr_new_truncates_mod_witness :
    65535 < alignedSize (4 + (NlAttrPayload.Bin (List.replicate 65533 1)).size)
    ∧ ((NlAttrHdr.new none .AttrFamilyId (.Bin (List.replicate 65533 1))).nla_len
        = alignedSize (4 + (NlAttrPayload.Bin (List.replicate 65533 1)).size) % 65536
      ∧ (NlAttrHdr.new none .AttrFamilyId (.Bin (List.replicate 65533 1))).nla_len
        ≠ alignedSize (4 + (NlAttrPayload.Bin (List.replicate 65533 1)).size)) := by
  have hs : (NlAttrPayload.Bin (List.replicate 65533 1)).size = 65533 :=
    (NlAttrPayload.size_bin _).trans (List.length_replicate 65533 1)
  have hA : alignedSize (4 + (NlAttrPayload.Bin (List.replicate 65533 1)).size) = 65540 :=
    (congrArg (fun n => alignedSize (4 + n)) hs).trans (by norm_num [alignedSize])
  have hgt : 65535 < alignedSize (4 + (NlAttrPayload.Bin (List.replicate 65533 1)).size) :=
    hA.symm ▸ (by norm_num : (65535 : Nat) < 65540)
  exact ⟨hgt, attr_new_truncates_mod .AttrFamilyId (.Bin (List.replicate 65533 1)) hgt⟩
